import Mathlib

/-!
Verification development for the Tron HD-wallet key-derivation engine
(`src/custom-hdwallet.js`, `src/signer/utils.js`, `src/wallet-account-tron.js`).

Byte buffers (`Uint8Array`) are embedded as big-endian `List Nat` with every
entry `< 256`.  The external cryptographic primitives (HMAC-SHA512,
secp256k1 point multiplication, keccak256, ECDSA signing) are oracle
parameters: the derivation and signing code treats their outputs as opaque
byte strings, so every theorem quantifies over (or instantiates) those
oracles.  All in-repo arithmetic — the byte-wise compare / add-with-carry /
subtract-order loops — is translated literally.
-/

/-- secp256k1 group order `n` (`secp256k1.CURVE.n` from the noble library). -/
def curveOrder : Nat :=
  0xFFFFFFFFFFFFFFFFFFFFFFFFFFFFFFFEBAAEDCE6AF48A03BBFD25E8CD0364141

/-- `const HARDENED_OFFSET = 0x80000000` (both files). -/
def HARDENED_OFFSET : Nat := 0x80000000

/-- Value of a little-endian byte list. -/
def toNatLE : List Nat → Nat
  | [] => 0
  | b :: bs => b + 256 * toNatLE bs

/-- Value of a big-endian byte list (the on-the-wire order of every buffer). -/
def toNatBE (bs : List Nat) : Nat := toNatLE bs.reverse

/-- All entries are bytes. -/
def WfBytes (bs : List Nat) : Prop := ∀ x ∈ bs, x < 256

instance (bs : List Nat) : Decidable (WfBytes bs) := by
  unfold WfBytes; infer_instance

/-- A well-formed 32-byte buffer. -/
def Wf32 (bs : List Nat) : Prop := bs.length = 32 ∧ WfBytes bs

instance (bs : List Nat) : Decidable (Wf32 bs) := by
  unfold Wf32; infer_instance

/-- The 32 big-endian bytes of the curve order, as read by the loops
`Number((secp256k1.CURVE.n >> BigInt(8 * (31 - i))) & 0xffn)`. -/
def curveOrderBytesBE : List Nat :=
  (List.range 32).map fun i => curveOrder / 2 ^ (8 * (31 - i)) % 256

/-- Byte-wise most-significant-first three-way comparison.  This is the loop
body shared by `compareWithCurveOrder` (utils.js lines 38–45): `1` on the
first strictly greater byte, `-1` on the first strictly smaller byte, `0`
when all bytes agree. -/
def compareBytesBE : List Nat → List Nat → Int
  | [], _ => 0
  | x :: xs, ys =>
    if x > ys.headD 0 then 1
    else if x < ys.headD 0 then -1
    else compareBytesBE xs ys.tail

/-- `compareWithCurveOrder(buffer)` (utils.js lines 38–45): compares the first
32 bytes of `buffer` with the curve-order bytes (callers pass either the
32-byte key buffer or the left half `IL` of the 64-byte HMAC buffer; we always
pass the relevant 32 bytes). -/
def compareWithCurveOrder (buffer : List Nat) : Int :=
  compareBytesBE buffer curveOrderBytesBE

/-- The explicit comparison loops of `custom-hdwallet.js` (lines 180–189 for
the IL range check and 205–214 for the reduce check): `skip`/`needsModulo`
starts `false`, is set `true` on the first strictly greater byte and the loop
`break`s on the first strictly smaller byte — so the result is `true` iff the
buffer is lexicographically strictly greater than the order bytes. -/
def skipLoop : List Nat → List Nat → Bool
  | [], _ => false
  | x :: xs, ys =>
    if x > ys.headD 0 then true
    else if x < ys.headD 0 then false
    else skipLoop xs ys.tail

/-- `isBufferZero` (utils.js lines 47–49) and the explicit zero loop of
custom-hdwallet.js lines 229–235. -/
def isBufferZero (buffer : List Nat) : Bool :=
  buffer.all fun byte => byte == 0

/-- Little-endian add-with-carry; the JS loops run `i = 31 … 0` over the
big-endian arrays, i.e. left-to-right over the reversed lists.
`sum & 0xff` is `% 256` and `sum >> 8` is `/ 256`. -/
def addBytesLE : List Nat → List Nat → Nat → List Nat × Nat
  | [], _, c => ([], c)
  | x :: xs, ys, c =>
    let s := x + ys.headD 0 + c
    let r := addBytesLE xs ys.tail (s / 256)
    (s % 256 :: r.1, r.2)

/-- `addPrivateKeys(target, addition)` (utils.js lines 51–59, identical to the
inline loop of custom-hdwallet.js lines 195–200): in-place byte-wise addition,
returning the new buffer together with `carry > 0`. -/
def addPrivateKeys (target addition : List Nat) : List Nat × Bool :=
  let r := addBytesLE target.reverse addition.reverse 0
  (r.1.reverse, r.2 != 0)

/-- Little-endian subtract-with-borrow:
`diff = privateKey[i] - curveOrderByte - carry`,
`privateKey[i] = diff < 0 ? diff + 256 : diff`.  Also returns the final
borrow (which the source discards). -/
def subBytesLE : List Nat → List Nat → Nat → List Nat × Nat
  | [], _, c => ([], c)
  | x :: xs, ys, c =>
    let d : Int := (x : Int) - (ys.headD 0 : Int) - (c : Int)
    let r := subBytesLE xs ys.tail (if d < 0 then 1 else 0)
    ((if d < 0 then d + 256 else d).toNat :: r.1, r.2)

/-- `subtractFromPrivateKey(privateKey)` (utils.js lines 61–69, identical to
the inline loop of custom-hdwallet.js lines 219–225): subtracts the curve
order byte-wise, right to left, with borrow. -/
def subtractFromPrivateKey (privateKey : List Nat) : List Nat :=
  (subBytesLE privateKey.reverse curveOrderBytesBE.reverse 0).1.reverse

/-- Final borrow of the subtraction (discarded by the source; used only to
state the arithmetic lemmas). -/
def subtractBorrow (privateKey : List Nat) : Nat :=
  (subBytesLE privateKey.reverse curveOrderBytesBE.reverse 0).2

/-- The non-skipped update of `derivePrivateKeyBuffer` (utils.js lines
100–105): add `IL`, then subtract the order once when the addition overflowed
or `compareWithCurveOrder(privateKeyBuffer) >= 0`. -/
def addModOrder (privateKeyBuffer hmacLeft : List Nat) : List Nat :=
  let r := addPrivateKeys privateKeyBuffer hmacLeft
  if r.2 ∨ 0 ≤ compareWithCurveOrder r.1 then subtractFromPrivateKey r.1 else r.1

/-- The non-skipped update of `CustomTronHDWallet.fromSeed` (custom-hdwallet.js
lines 194–226): same addition, but `needsModulo` is set by the strict
break-loop (`skipLoop`), so the subtraction happens only when the addition
overflowed or the result is strictly greater than the order. -/
def addModOrderStrict (privateKeyBuffer hmacLeft : List Nat) : List Nat :=
  let r := addPrivateKeys privateKeyBuffer hmacLeft
  if r.2 ∨ skipLoop r.1 curveOrderBytesBE then subtractFromPrivateKey r.1 else r.1

/-- Big-endian bytes of a number, fixed width (test-vector builder). -/
def natToBytesBE : Nat → Nat → List Nat
  | 0, _ => []
  | len + 1, v => natToBytesBE len (v / 256) ++ [v % 256]

/-! ### Path parsing -/

/-- The apostrophe character (hardened marker). -/
def aposChar : Char := Char.ofNat 39

/-- JS `String.prototype.split('/')` on a character list:
`""` splits to `[""]`, separators at either end produce empty groups. -/
def splitOnSlash : List Char → List (List Char)
  | [] => [[]]
  | c :: cs =>
    if c = '/' then [] :: splitOnSlash cs
    else
      match splitOnSlash cs with
      | g :: gs => (c :: g) :: gs
      | [] => [[c]]

/-- Decimal value of a digit string. -/
def digitsToNat (cs : List Char) : Nat :=
  cs.foldl (fun a c => 10 * a + (c.toNat - 48)) 0

/-- Model of the JS `Number()` string coercion as used by
`parsePath` (utils.js line 34), with `none` standing for `NaN`.  It is
faithful on the component strings that arise from splitting a derivation
path on `/`: the empty string coerces to `0`, an all-digit string to its
decimal value, and anything containing a non-digit (`"m"`, `"44'"`, …) to
`NaN`.  (General JS `Number()` also accepts signs, whitespace, hex and
decimal points; no such component occurs in a derivation path.) -/
def jsStringToNumber (cs : List Char) : Option Nat :=
  if cs.isEmpty then some 0
  else if cs.all Char.isDigit then some (digitsToNat cs) else none

/-- Model of JS `parseInt` as used by `CustomTronHDWallet.#parsePath`
(custom-hdwallet.js line 116): parses the longest digit prefix, `NaN`
(`none`) if there is none.  Faithful on strings over digits and `'`. -/
def jsParseInt (cs : List Char) : Option Nat :=
  let ds := cs.takeWhile Char.isDigit
  if ds.isEmpty then none else some (digitsToNat ds)

/-- `component.endsWith("'")`. -/
def endsWithApos (cs : List Char) : Bool :=
  cs.getLast? == some aposChar

/-- Characters admitted by the body of the path regex `[0-9'/]`. -/
def pathBodyChar (c : Char) : Bool :=
  c.isDigit || c == aposChar || c == '/'

/-- `path.match(/^[mM]\/[0-9'/]+$/)` (custom-hdwallet.js line 107): the first
character is `m` or `M`, the second is `/`, and the non-empty remainder is
made of digits, apostrophes and slashes. -/
def matchesPathRegex (s : String) : Bool :=
  match s.toList with
  | c :: d :: rest =>
    (c == 'm' || c == 'M') && d == '/' && !rest.isEmpty && rest.all pathBodyChar
  | _ => false

/-- Modelled from the spec: one grammar component — "a non-negative decimal
integer optionally suffixed with `'` to mark it hardened" — i.e. a non-empty
digit string followed by at most one trailing apostrophe. -/
def grammarComponent (cs : List Char) : Bool :=
  match cs.getLast? with
  | none => false
  | some c =>
    if c = aposChar then !cs.dropLast.isEmpty && cs.dropLast.all Char.isDigit
    else cs.all Char.isDigit

/-- Modelled from the spec: the path grammar of §6 — "`m` or `M`, followed by
one or more `/`-separated components, each a non-negative decimal integer
optionally suffixed with `'`". -/
def specPathGrammar (s : String) : Bool :=
  match splitOnSlash s.toList with
  | [] => false
  | c0 :: rest =>
    (c0 == ['m'] || c0 == ['M']) && !rest.isEmpty && rest.all grammarComponent

/-- `parsePath(path)` (utils.js lines 33–36):
`path.split('/').map(Number)`.  Note that the leading `m` component is kept
(it maps to `NaN`) and hardened components also map to `NaN`. -/
def parsePath (path : String) : List (Option Nat) :=
  (splitOnSlash path.toList).map jsStringToNumber

/-- `CustomTronHDWallet.#parsePath(path)` (custom-hdwallet.js lines 106–122):
regex check, lowercase, split on `/`, drop the `m`, `parseInt` each component
and add `HARDENED_OFFSET` when it ends with `'` (`NaN + HARDENED_OFFSET` is
still `NaN`, hence `none` stays `none`). -/
def hdParsePath (path : String) : Except String (List (Option Nat)) :=
  if matchesPathRegex path then
    Except.ok (((splitOnSlash (path.toList.map Char.toLower)).drop 1).map fun comp =>
      match jsParseInt comp with
      | none => none
      | some idx => some (if endsWithApos comp then idx + HARDENED_OFFSET else idx))
  else Except.error "Invalid derivation path"

/-- Concatenation with `/` separators (proof helper: left inverse of
`splitOnSlash`). -/
def joinSlash : List (List Char) → List Char
  | [] => []
  | [g] => g
  | g :: gs => g ++ '/' :: joinSlash gs

/-! ### The derivation loops -/

/-- The prefix string "Bitcoin seed" as bytes
(`new TextEncoder().encode('Bitcoin seed')`). -/
def asciiBytes (s : String) : List Nat := s.toList.map Char.toNat

/-- `MASTER_SECRET` (both files). -/
def MASTER_SECRET : List Nat := asciiBytes "Bitcoin seed"

/-- `encodeUInt32BE(value)` (utils.js lines 24–31 and custom-hdwallet.js
lines 124–131).  The JS `>> 24 & 0xff` chain over a 32-bit value equals the
big-endian base-256 digits for every `value < 2^32`. -/
def encodeUInt32BE (value : Nat) : List Nat :=
  [value / 2 ^ 24 % 256, value / 2 ^ 16 % 256, value / 2 ^ 8 % 256, value % 256]

/-- `index >= HARDENED_OFFSET` on a possibly-`NaN` index: `NaN >= x` is
`false` in JS. -/
def indexIsHardened : Option Nat → Bool
  | none => false
  | some v => HARDENED_OFFSET ≤ v

/-- The four index bytes written at offset 33: `encodeUInt32BE(index)`, where
`encodeUInt32BE(NaN)` yields `[0,0,0,0]` (each JS shift coerces `NaN` to the
32-bit integer `0`). -/
def encodeIndexBytes : Option Nat → List Nat
  | none => [0, 0, 0, 0]
  | some v => encodeUInt32BE v

/-- One loop iteration of `derivePrivateKeyBuffer` after the child HMAC has
been stored (utils.js lines 96–111).  `chainCode` is
`hmacOutputBuffer.subarray(32)`, an alias of the HMAC output buffer, so once
`hmacOutputBuffer.set(hmac(...))` has run the chain code already holds `IR`;
the final `chainCode.set(hmacOutputBuffer.subarray(32))` copies the subarray
onto itself and is a no-op.  Consequently every branch returns `IR` as the
chain code, and the zero-check `continue` does not restore the key buffer. -/
def utilsStep (privateKeyBuffer hmacLeft hmacRight : List Nat) :
    List Nat × List Nat :=
  if 0 ≤ compareWithCurveOrder hmacLeft then (privateKeyBuffer, hmacRight)
  else
    let key := addModOrder privateKeyBuffer hmacLeft
    if isBufferZero key then (key, hmacRight) else (key, hmacRight)

/-- One loop iteration of `CustomTronHDWallet.fromSeed` after the child HMAC
has been stored (custom-hdwallet.js lines 178–242).  Identical to
`utilsStep` except that the range check and the reduce check are the strict
break-loops (`skipLoop`).  The chain-code aliasing is the same: line 241
copies `hmacOutputBuffer.subarray(32)` onto itself. -/
def customStep (privateKeyBuffer hmacLeft hmacRight : List Nat) :
    List Nat × List Nat :=
  if skipLoop hmacLeft curveOrderBytesBE then (privateKeyBuffer, hmacRight)
  else
    let key := addModOrderStrict privateKeyBuffer hmacLeft
    if isBufferZero key then (key, hmacRight) else (key, hmacRight)

/-- The child-derivation loop of `derivePrivateKeyBuffer` (utils.js lines
83–112), parameterised by the HMAC-SHA512 oracle `hmacF` (key, message ↦ 64
bytes) and the compressed-public-key oracle `pubF`.  The state is
(private key, chain code). -/
def utilsDeriveLoop (hmacF : List Nat → List Nat → List Nat)
    (pubF : List Nat → List Nat) :
    List (Option Nat) → List Nat × List Nat → List Nat × List Nat
  | [], st => st
  | index :: rest, st =>
    let data :=
      if indexIsHardened index then 0 :: (st.1 ++ encodeIndexBytes index)
      else pubF st.1 ++ encodeIndexBytes index
    let I := hmacF st.2 data
    utilsDeriveLoop hmacF pubF rest (utilsStep st.1 (I.take 32) (I.drop 32))

/-- The child-derivation loop of `CustomTronHDWallet.fromSeed`
(custom-hdwallet.js lines 161–242), also returning the trace of
`hmac(sha512, chainCode, derivationData)` calls it performs. -/
def customDeriveLoop (hmacF : List Nat → List Nat → List Nat)
    (pubF : List Nat → List Nat) :
    List (Option Nat) → List Nat × List Nat →
      (List Nat × List Nat) × List (List Nat × List Nat)
  | [], st => (st, [])
  | index :: rest, st =>
    let data :=
      if indexIsHardened index then 0 :: (st.1 ++ encodeIndexBytes index)
      else pubF st.1 ++ encodeIndexBytes index
    let I := hmacF st.2 data
    let r := customDeriveLoop hmacF pubF rest (customStep st.1 (I.take 32) (I.drop 32))
    (r.1, (st.2, data) :: r.2)

/-- `derivePrivateKeyBuffer(seed, …, path)` (utils.js lines 71–113): master
HMAC with key `"Bitcoin seed"`, initial key = left half, chain code = right
half (an alias of the HMAC buffer), then the child loop over
`parsePath(path)`.  The function performs no input validation at all. -/
def derivePrivateKeyBuffer (hmacF : List Nat → List Nat → List Nat)
    (pubF : List Nat → List Nat) (seed : List Nat) (path : String) :
    List Nat × List Nat :=
  let I0 := hmacF MASTER_SECRET seed
  utilsDeriveLoop hmacF pubF (parsePath path) (I0.take 32, I0.drop 32)

/-- A caller-supplied byte argument: whether it is a `Uint8Array`, and its
contents. -/
structure JSBytes where
  isU8 : Bool
  bytes : List Nat

/-- A caller-supplied scratch buffer: whether it is a `Uint8Array`, and its
length (the contents are overwritten before being read). -/
structure JSBuf where
  isU8 : Bool
  len : Nat

/-- `CustomTronHDWallet.fromSeed` (custom-hdwallet.js lines 133–246): the
five validation checks in source order, then the master HMAC, then the path
parse (note: the master HMAC runs *before* the parse), then the child loop.
Returns the final (private key, chain code) or the thrown error message,
paired with the trace of HMAC-SHA512 invocations. -/
def fromSeed (hmacF : List Nat → List Nat → List Nat)
    (pubF : List Nat → List Nat) (seed : JSBytes)
    (privateKeyBuffer hmacOutputBuffer derivationDataBuffer backupBuffer : JSBuf)
    (path : String) :
    Except String (List Nat × List Nat) × List (List Nat × List Nat) :=
  if !seed.isU8 then
    (Except.error "seed must be a Uint8Array", [])
  else if !privateKeyBuffer.isU8 || privateKeyBuffer.len != 32 then
    (Except.error "privateKeyBuffer must be 32 bytes", [])
  else if !hmacOutputBuffer.isU8 || hmacOutputBuffer.len != 64 then
    (Except.error "hmacOutputBuffer must be a 64-byte Uint8Array", [])
  else if !derivationDataBuffer.isU8 || derivationDataBuffer.len != 37 then
    (Except.error "derivationDataBuffer must be a 37-byte Uint8Array", [])
  else if !backupBuffer.isU8 || backupBuffer.len != 32 then
    (Except.error "backupBuffer must be a 32-byte Uint8Array", [])
  else
    let I0 := hmacF MASTER_SECRET seed.bytes
    match hdParsePath path with
    | Except.error e => (Except.error e, [(MASTER_SECRET, seed.bytes)])
    | Except.ok indices =>
      let r := customDeriveLoop hmacF pubF indices (I0.take 32, I0.drop 32)
      (Except.ok r.1, (MASTER_SECRET, seed.bytes) :: r.2)

/-- The five validation checks of `fromSeed` as one predicate (no emptiness
check on the seed, and the 32-byte `backupBuffer` is validated although the
derivation never uses it). -/
def fromSeedChecksPass (seed : JSBytes)
    (privateKeyBuffer hmacOutputBuffer derivationDataBuffer backupBuffer : JSBuf) :
    Bool :=
  seed.isU8 && privateKeyBuffer.isU8 && privateKeyBuffer.len == 32 &&
    hmacOutputBuffer.isU8 && hmacOutputBuffer.len == 64 &&
    derivationDataBuffer.isU8 && derivationDataBuffer.len == 37 &&
    backupBuffer.isU8 && backupBuffer.len == 32

/-- Well-formedness of an HMAC-SHA512 oracle: a 64-byte output. -/
def HmacWf (hmacF : List Nat → List Nat → List Nat) : Prop :=
  ∀ k m, (hmacF k m).length = 64 ∧ WfBytes (hmacF k m)

/-! ### Message signing (TIP-191) -/

/-- The TIP-191 header `'\x19TRON Signed Message:\n'`. -/
def tronSignedMessageHeader : String := "\x19TRON Signed Message:\n"

/-- `target.set(src, offset)` on JS typed arrays (writes `src` into `target`
starting at `offset`; our uses always fit). -/
def listSet : List Nat → Nat → List Nat → List Nat
  | t, _, [] => t
  | [], _, _ => []
  | _ :: ts, 0, s :: ss => s :: listSet ts 0 ss
  | t :: ts, k + 1, src => t :: listSet ts k src

/-- `CustomTronHDWallet.sign(message)` (custom-hdwallet.js lines 56–73),
identical to `WalletAccountTron.sign` (wallet-account-tron.js lines 172–190):
build the TIP-191 prefix embedding the decimal byte length, copy prefix and
message into a fresh zero buffer, keccak256 the result, and sign the digest
with the signing key.  `keccakF` and `signF` are the external oracles. -/
def signMessage (keccakF : List Nat → List Nat) (signF : List Nat → String)
    (messageBytes : List Nat) : String :=
  let pfx := asciiBytes (tronSignedMessageHeader ++ toString messageBytes.length)
  let prefixedMessage :=
    listSet (listSet (List.replicate (pfx.length + messageBytes.length) 0) 0 pfx)
      pfx.length messageBytes
  let messageHash := keccakF prefixedMessage
  signF messageHash

/-! ### Account disposal -/

/-- The fields of `WalletAccountTron` relevant to disposal: the path string
(never nulled), and the private-key buffer and signing key, which `dispose`
sets to `null` (`none`).  The signing key wraps the same underlying key
bytes. -/
structure AccountState where
  accountPath : String
  privateKeyBuffer : Option (List Nat)
  signingKey : Option (List Nat)

/-- Modelled from the libsodium contract of `sodium_memzero`: overwrites the
buffer with zero bytes. -/
def sodium_memzero (buffer : List Nat) : List Nat :=
  List.replicate buffer.length 0

/-- `WalletAccountTron.dispose` (wallet-account-tron.js lines 458–468; the
variant `close`, custom-hdwallet bundle lines 559–571, is the same):
`sodium_memzero` every sensitive buffer, then null the fields.  Returns the
post-zeroization contents of the private-key buffer object that existed at
disposal time, together with the new field state. -/
def dispose (st : AccountState) : List Nat × AccountState :=
  (sodium_memzero (st.privateKeyBuffer.getD []),
    ⟨st.accountPath, none, none⟩)

/-- `WalletAccountTron.sign` after field lookup: hashing as in
`signMessage`, then `this.#signingKey.sign(messageHash)` — on a disposed
instance `#signingKey` is `null` and the property access throws the generic
JS `TypeError`, not a dedicated error. -/
def accountSign (keccakF : List Nat → List Nat)
    (signF : List Nat → List Nat → String) (st : AccountState)
    (messageBytes : List Nat) : Except String String :=
  let pfx := asciiBytes (tronSignedMessageHeader ++ toString messageBytes.length)
  let prefixedMessage :=
    listSet (listSet (List.replicate (pfx.length + messageBytes.length) 0) 0 pfx)
      pfx.length messageBytes
  let messageHash := keccakF prefixedMessage
  match st.signingKey with
  | none => Except.error "TypeError: Cannot read properties of null"
  | some key => Except.ok (signF key messageHash)

/-- The `path` getter (`get path() { return this.#path }`): `dispose` never
nulls `#path`, so the getter keeps succeeding after disposal. -/
def accountPathGet (st : AccountState) : Except String String :=
  Except.ok st.accountPath

/-! ### Concrete fixtures for witnesses and counterexamples -/

/-- Oracle returning 64 `0xff` bytes: its left half is `2^256 - 1 ≥ n`. -/
def constHmacFF : List Nat → List Nat → List Nat := fun _ _ =>
  List.replicate 64 255

/-- Oracle whose left half is the integer 1 and right half is zero. -/
def constHmacOne : List Nat → List Nat → List Nat := fun _ _ =>
  List.replicate 31 0 ++ [1] ++ List.replicate 32 0

/-- A fixed compressed-public-key oracle. -/
def constPub : List Nat → List Nat := fun _ => List.replicate 33 2

/-- The path `"m/0"`. -/
def pathM0 : String := "m/0"

/-- The path `"m/0'"` (hardened first component). -/
def pathM0h : String := String.mk ['m', '/', '0', aposChar]

/-- The malformed-per-grammar path `"m/'"`. -/
def pathAposOnly : String := String.mk ['m', '/', aposChar]

/-- A 32-byte buffer holding the integer 1. -/
def oneBytes32 : List Nat := natToBytesBE 32 1

/-- A 32-byte buffer holding `n - 1`. -/
def orderMinusOneBytes : List Nat := natToBytesBE 32 (curveOrder - 1)

/-- A valid seed argument that is empty. -/
def emptySeedArg : JSBytes := ⟨true, []⟩

/-- Correctly sized scratch buffers. -/
def pk32 : JSBuf := ⟨true, 32⟩

/-- 64-byte HMAC scratch buffer. -/
def hm64 : JSBuf := ⟨true, 64⟩

/-- 37-byte derivation-data buffer. -/
def dd37 : JSBuf := ⟨true, 37⟩

/-- 32-byte backup buffer. -/
def bb32 : JSBuf := ⟨true, 32⟩

/-- A wrongly sized backup buffer. -/
def bb5 : JSBuf := ⟨true, 5⟩

/-- An account state before disposal. -/
def accountBefore : AccountState := ⟨pathM0, some oneBytes32, some oneBytes32⟩

/-- A fixed keccak oracle for closed tests. -/
def idKeccak : List Nat → List Nat := fun l => l

/-- A fixed signer oracle for closed tests. -/
def constSigner : List Nat → List Nat → String := fun _ _ => "sig"

/-! ### Arithmetic lemmas about the byte kernel -/

theorem toNatLE_append (a b : List Nat) :
    toNatLE (a ++ b) = toNatLE a + 256 ^ a.length * toNatLE b := by
  induction a with
  | nil => simp [toNatLE]
  | cons x xs ih =>
    rw [List.cons_append,
      show toNatLE (x :: (xs ++ b)) = x + 256 * toNatLE (xs ++ b) from rfl,
      ih, List.length_cons, pow_succ,
      show toNatLE (x :: xs) = x + 256 * toNatLE xs from rfl]
    ring

theorem toNatLE_lt (a : List Nat) (h : WfBytes a) : toNatLE a < 256 ^ a.length := by
  induction a with
  | nil => simp [toNatLE]
  | cons x xs ih =>
    have hx : x < 256 := h x (by simp)
    have hxs : toNatLE xs < 256 ^ xs.length := ih fun y hy => h y (by simp [hy])
    simp only [toNatLE, List.length_cons, pow_succ]
    have h1 : x + 256 * toNatLE xs < 256 * (toNatLE xs + 1) := by omega
    have h2 : 256 * (toNatLE xs + 1) ≤ 256 * 256 ^ xs.length :=
      Nat.mul_le_mul_left _ hxs
    have h3 : 256 * 256 ^ xs.length = 256 ^ xs.length * 256 := by ring
    omega

theorem toNatBE_cons (x : Nat) (xs : List Nat) :
    toNatBE (x :: xs) = toNatBE xs + 256 ^ xs.length * x := by
  unfold toNatBE
  rw [List.reverse_cons, toNatLE_append]
  simp [toNatLE, List.length_reverse]

theorem toNatBE_lt (a : List Nat) (h : WfBytes a) : toNatBE a < 256 ^ a.length := by
  unfold toNatBE
  rw [← List.length_reverse]
  exact toNatLE_lt _ fun x hx => h x (List.mem_reverse.mp hx)

theorem wfBytes_reverse (a : List Nat) (h : WfBytes a) : WfBytes a.reverse :=
  fun x hx => h x (List.mem_reverse.mp hx)

theorem addBytesLE_length (a b : List Nat) (c : Nat) :
    (addBytesLE a b c).1.length = a.length := by
  induction a generalizing b c with
  | nil => simp [addBytesLE]
  | cons x xs ih => simp [addBytesLE, ih]

theorem addBytesLE_wf (a b : List Nat) (c : Nat) : WfBytes (addBytesLE a b c).1 := by
  induction a generalizing b c with
  | nil => simp [addBytesLE, WfBytes]
  | cons x xs ih =>
    intro z hz
    simp only [addBytesLE, List.mem_cons] at hz
    rcases hz with h | h
    · omega
    · exact ih _ _ z h

theorem addBytesLE_val (a : List Nat) : ∀ (b : List Nat) (c : Nat),
    b.length = a.length →
    toNatLE (addBytesLE a b c).1 + 256 ^ a.length * (addBytesLE a b c).2
      = toNatLE a + toNatLE b + c := by
  induction a with
  | nil =>
    intro b c hl
    cases b with
    | nil => simp [addBytesLE, toNatLE]
    | cons y ys => simp at hl
  | cons x xs ih =>
    intro b c hl
    cases b with
    | nil => simp at hl
    | cons y ys =>
      have hlen : ys.length = xs.length := by simpa using hl
      have hIH := ih ys ((x + y + c) / 256) hlen
      simp only [addBytesLE, List.headD_cons, List.tail_cons, toNatLE, List.length_cons]
      have hmd : (x + y + c) % 256 + 256 * ((x + y + c) / 256) = x + y + c :=
        Nat.mod_add_div _ _
      have hmul : 256 ^ (xs.length + 1) * (addBytesLE xs ys ((x + y + c) / 256)).2
          = 256 * (256 ^ xs.length * (addBytesLE xs ys ((x + y + c) / 256)).2) := by
        ring
      omega

theorem addBytesLE_carry (a : List Nat) : ∀ (b : List Nat) (c : Nat),
    WfBytes a → WfBytes b → c ≤ 1 → (addBytesLE a b c).2 ≤ 1 := by
  induction a with
  | nil => intro b c _ _ hc; simpa [addBytesLE] using hc
  | cons x xs ih =>
    intro b c ha hb hc
    have hx : x < 256 := ha x (by simp)
    have hy : b.headD 0 < 256 := by
      cases b with
      | nil => simp
      | cons y ys => exact hb y (by simp)
    have hbt : WfBytes b.tail := by
      intro z hz
      exact hb z (List.mem_of_mem_tail hz)
    have hxs : WfBytes xs := fun z hz => ha z (by simp [hz])
    simp only [addBytesLE]
    exact ih b.tail _ hxs hbt (by omega)

theorem addPrivateKeys_length (a b : List Nat) :
    (addPrivateKeys a b).1.length = a.length := by
  unfold addPrivateKeys
  simp [addBytesLE_length]

theorem addPrivateKeys_wf (a b : List Nat) : WfBytes (addPrivateKeys a b).1 := by
  unfold addPrivateKeys
  exact wfBytes_reverse _ (addBytesLE_wf _ _ _)

theorem addPrivateKeys_val (a b : List Nat) (hl : a.length = b.length)
    (ha : WfBytes a) (hb : WfBytes b) :
    toNatBE (addPrivateKeys a b).1
      + 256 ^ a.length * (if (addPrivateKeys a b).2 then 1 else 0)
      = toNatBE a + toNatBE b := by
  unfold addPrivateKeys
  have hlr : b.reverse.length = a.reverse.length := by simp [hl]
  have hval := addBytesLE_val a.reverse b.reverse 0 hlr
  have hcar := addBytesLE_carry a.reverse b.reverse 0
    (wfBytes_reverse _ ha) (wfBytes_reverse _ hb) (by omega)
  simp only [toNatBE, List.reverse_reverse, List.length_reverse] at hval ⊢
  have hflag : (if ((addBytesLE a.reverse b.reverse 0).2 != 0) = true then 1 else 0)
      = (addBytesLE a.reverse b.reverse 0).2 := by
    rcases Nat.le_one_iff_eq_zero_or_eq_one.mp hcar with h | h <;> simp [h]
  simp only [hflag]
  omega

theorem subBytesLE_length (a b : List Nat) (c : Nat) :
    (subBytesLE a b c).1.length = a.length := by
  induction a generalizing b c with
  | nil => simp [subBytesLE]
  | cons x xs ih => simp [subBytesLE, ih]

theorem subBytesLE_borrow (a : List Nat) : ∀ (b : List Nat) (c : Nat),
    c ≤ 1 → (subBytesLE a b c).2 ≤ 1 := by
  induction a with
  | nil => intro b c hc; simpa [subBytesLE] using hc
  | cons x xs ih =>
    intro b c hc
    simp only [subBytesLE]
    exact ih b.tail _ (by split <;> omega)

theorem subBytesLE_wf (a : List Nat) : ∀ (b : List Nat) (c : Nat),
    WfBytes a → WfBytes b → c ≤ 1 → WfBytes (subBytesLE a b c).1 := by
  induction a with
  | nil => intro b c _ _ _; simp [subBytesLE, WfBytes]
  | cons x xs ih =>
    intro b c ha hb hc
    have hx : x < 256 := ha x (by simp)
    have hy : b.headD 0 < 256 := by
      cases b with
      | nil => simp
      | cons y ys => exact hb y (by simp)
    have hbt : WfBytes b.tail := fun z hz => hb z (List.mem_of_mem_tail hz)
    have hxs : WfBytes xs := fun z hz => ha z (by simp [hz])
    intro z hz
    simp only [subBytesLE, List.mem_cons] at hz
    rcases hz with h | h
    · subst h
      split <;> rename_i hd <;> omega
    · exact ih b.tail _ hxs hbt (by split <;> omega) z h

theorem subBytesLE_val (a : List Nat) : ∀ (b : List Nat) (c : Nat),
    b.length = a.length → WfBytes b → c ≤ 1 →
    (toNatLE (subBytesLE a b c).1 : Int) + toNatLE b + c
      = toNatLE a + 256 ^ a.length * ((subBytesLE a b c).2 : Int) := by
  induction a with
  | nil =>
    intro b c hl _ _
    cases b with
    | nil => simp [subBytesLE, toNatLE]
    | cons y ys => simp at hl
  | cons x xs ih =>
    intro b c hl hb hc
    cases b with
    | nil => simp at hl
    | cons y ys =>
      have hlen : ys.length = xs.length := by simpa using hl
      have hy : y < 256 := hb y (by simp)
      have hys : WfBytes ys := fun z hz => hb z (by simp [hz])
      by_cases hneg : (x : Int) - (y : Int) - (c : Int) < 0
      · have hIH := ih ys 1 hlen hys (by omega)
        simp only [subBytesLE, List.headD_cons, List.tail_cons, if_pos hneg,
          toNatLE, List.length_cons]
        have htn : ((((x : Int) - (y : Int) - (c : Int)) + 256).toNat : Int)
            = (x : Int) - (y : Int) - (c : Int) + 256 :=
          Int.toNat_of_nonneg (by omega)
        have hmul : ((256 : Int)) ^ (xs.length + 1) * ((subBytesLE xs ys 1).2 : Int)
            = 256 * (256 ^ xs.length * ((subBytesLE xs ys 1).2 : Int)) := by
          ring
        push_cast at hIH ⊢
        rw [htn]
        push_cast at hmul
        linarith [hIH, hmul]
      · have hIH := ih ys 0 hlen hys (by omega)
        simp only [subBytesLE, List.headD_cons, List.tail_cons, if_neg hneg,
          toNatLE, List.length_cons]
        have htn : ((((x : Int) - (y : Int) - (c : Int))).toNat : Int)
            = (x : Int) - (y : Int) - (c : Int) :=
          Int.toNat_of_nonneg (by omega)
        have hmul : ((256 : Int)) ^ (xs.length + 1) * ((subBytesLE xs ys 0).2 : Int)
            = 256 * (256 ^ xs.length * ((subBytesLE xs ys 0).2 : Int)) := by
          ring
        push_cast at hIH ⊢
        rw [htn]
        push_cast at hmul
        linarith [hIH, hmul]

theorem curveOrderBytesBE_length : curveOrderBytesBE.length = 32 := by
  simp [curveOrderBytesBE]

theorem curveOrderBytesBE_wf : WfBytes curveOrderBytesBE := by decide

theorem curveOrderBytesBE_toNat : toNatBE curveOrderBytesBE = curveOrder := by decide

theorem curveOrder_pos : 0 < curveOrder := by decide

theorem curveOrder_lt_pow : curveOrder < 256 ^ 32 := by decide

theorem pow_lt_two_curveOrder : 256 ^ 32 < 2 * curveOrder := by decide

theorem compareBytesBE_spec (a : List Nat) : ∀ b : List Nat, a.length = b.length →
    WfBytes a → WfBytes b →
    compareBytesBE a b = if toNatBE b < toNatBE a then 1
      else if toNatBE a < toNatBE b then -1 else 0 := by
  induction a with
  | nil =>
    intro b hl _ _
    cases b with
    | nil => simp [compareBytesBE, toNatBE, toNatLE]
    | cons y ys => simp at hl
  | cons x xs ih =>
    intro b hl ha hb
    cases b with
    | nil => simp at hl
    | cons y ys =>
      have hlen : xs.length = ys.length := by simpa using hl
      have hx : x < 256 := ha x (by simp)
      have hy : y < 256 := hb y (by simp)
      have hxs : WfBytes xs := fun z hz => ha z (by simp [hz])
      have hys : WfBytes ys := fun z hz => hb z (by simp [hz])
      have hxsv : toNatBE xs < 256 ^ xs.length := toNatBE_lt xs hxs
      have hysv : toNatBE ys < 256 ^ xs.length := by
        rw [hlen]; exact toNatBE_lt ys hys
      rw [toNatBE_cons, toNatBE_cons, ← hlen]
      simp only [compareBytesBE, List.headD_cons, List.tail_cons]
      rcases Nat.lt_trichotomy x y with hc | hc | hc
      · rw [if_neg (by omega), if_pos hc]
        have hmul : 256 ^ xs.length * (x + 1) ≤ 256 ^ xs.length * y :=
          Nat.mul_le_mul_left _ (by omega)
        have hexp : 256 ^ xs.length * (x + 1)
            = 256 ^ xs.length * x + 256 ^ xs.length := by ring
        rw [if_neg (by omega), if_pos (by omega)]
      · subst hc
        rw [if_neg (by omega), if_neg (by omega), ih ys hlen hxs hys]
        have h1 : (toNatBE ys + 256 ^ xs.length * x < toNatBE xs + 256 ^ xs.length * x)
            ↔ toNatBE ys < toNatBE xs := by omega
        have h2 : (toNatBE xs + 256 ^ xs.length * x < toNatBE ys + 256 ^ xs.length * x)
            ↔ toNatBE xs < toNatBE ys := by omega
        simp only [h1, h2]
      · rw [if_pos hc]
        have hmul : 256 ^ xs.length * (y + 1) ≤ 256 ^ xs.length * x :=
          Nat.mul_le_mul_left _ (by omega)
        have hexp : 256 ^ xs.length * (y + 1)
            = 256 ^ xs.length * y + 256 ^ xs.length := by ring
        rw [if_pos (by omega)]

theorem compareBytesBE_eq_of_zero (a : List Nat) : ∀ b : List Nat,
    a.length = b.length → compareBytesBE a b = 0 → a = b := by
  induction a with
  | nil =>
    intro b hl _
    cases b with
    | nil => rfl
    | cons y ys => simp at hl
  | cons x xs ih =>
    intro b hl hz
    cases b with
    | nil => simp at hl
    | cons y ys =>
      simp only [compareBytesBE, List.headD_cons, List.tail_cons] at hz
      by_cases h1 : x > y
      · rw [if_pos h1] at hz; exact absurd hz (by decide)
      · rw [if_neg h1] at hz
        by_cases h2 : x < y
        · rw [if_pos h2] at hz; exact absurd hz (by decide)
        · rw [if_neg h2] at hz
          have hxy : x = y := by omega
          subst hxy
          rw [ih ys (by simpa using hl) hz]

theorem toNatBE_inj (a b : List Nat) (hl : a.length = b.length)
    (ha : WfBytes a) (hb : WfBytes b) (hv : toNatBE a = toNatBE b) : a = b := by
  apply compareBytesBE_eq_of_zero a b hl
  rw [compareBytesBE_spec a b hl ha hb, hv]
  simp

theorem compareWithCurveOrder_nonneg_iff (a : List Nat) (h : Wf32 a) :
    0 ≤ compareWithCurveOrder a ↔ curveOrder ≤ toNatBE a := by
  unfold compareWithCurveOrder
  rw [compareBytesBE_spec a curveOrderBytesBE
    (by rw [h.1, curveOrderBytesBE_length]) h.2 curveOrderBytesBE_wf,
    curveOrderBytesBE_toNat]
  by_cases h1 : curveOrder < toNatBE a
  · rw [if_pos h1]; constructor <;> intro <;> omega
  · rw [if_neg h1]
    by_cases h2 : toNatBE a < curveOrder
    · rw [if_pos h2]
      constructor
      · intro hx; exact absurd hx (by decide)
      · intro hx; omega
    · rw [if_neg h2]; constructor <;> intro <;> omega

theorem skipLoop_eq_one (a : List Nat) : ∀ b : List Nat,
    skipLoop a b = true ↔ compareBytesBE a b = 1 := by
  induction a with
  | nil =>
    intro b
    rw [show skipLoop [] b = false from rfl,
      show compareBytesBE [] b = 0 from rfl]
    constructor
    · intro h; exact absurd h (by decide)
    · intro h; exact absurd h (by decide)
  | cons x xs ih =>
    intro b
    rw [show skipLoop (x :: xs) b
        = (if x > b.headD 0 then true
           else if x < b.headD 0 then false else skipLoop xs b.tail) from rfl,
      show compareBytesBE (x :: xs) b
        = (if x > b.headD 0 then 1
           else if x < b.headD 0 then -1 else compareBytesBE xs b.tail) from rfl]
    by_cases h1 : x > b.headD 0
    · rw [if_pos h1, if_pos h1]
      constructor <;> intro _ <;> rfl
    · rw [if_neg h1, if_neg h1]
      by_cases h2 : x < b.headD 0
      · rw [if_pos h2, if_pos h2]
        constructor
        · intro h; exact absurd h (by decide)
        · intro h; exact absurd h (by decide)
      · rw [if_neg h2, if_neg h2]
        exact ih b.tail

theorem skipLoop_iff_lt (a : List Nat) (h : Wf32 a) :
    skipLoop a curveOrderBytesBE = true ↔ curveOrder < toNatBE a := by
  rw [skipLoop_eq_one,
    compareBytesBE_spec a curveOrderBytesBE
      (by rw [h.1, curveOrderBytesBE_length]) h.2 curveOrderBytesBE_wf,
    curveOrderBytesBE_toNat]
  by_cases h1 : curveOrder < toNatBE a
  · simp [h1]
  · rw [if_neg h1]
    by_cases h2 : toNatBE a < curveOrder
    · rw [if_pos h2]
      constructor
      · intro hx; exact absurd hx (by decide)
      · intro hx; omega
    · rw [if_neg h2]
      constructor
      · intro hx; exact absurd hx (by decide)
      · intro hx; omega

theorem toNatBE_reverse (l : List Nat) : toNatBE l.reverse = toNatLE l := by
  unfold toNatBE
  rw [List.reverse_reverse]

theorem mod_order_of_ge {s : Nat} (h1 : curveOrder ≤ s) (h2 : s < 2 * curveOrder) :
    s % curveOrder = s - curveOrder := by
  rw [Nat.mod_eq_sub_mod h1]
  exact Nat.mod_eq_of_lt (by omega)

theorem subtractFromPrivateKey_spec (a : List Nat) (ha : WfBytes a)
    (hl : a.length = 32) :
    (subtractFromPrivateKey a).length = 32 ∧ WfBytes (subtractFromPrivateKey a) ∧
      subtractBorrow a ≤ 1 ∧
      ((toNatBE (subtractFromPrivateKey a) : Int) + curveOrder
        = toNatBE a + 256 ^ 32 * (subtractBorrow a : Int)) := by
  have hbl : curveOrderBytesBE.reverse.length = a.reverse.length := by
    simp [curveOrderBytesBE_length, hl]
  have hbw : WfBytes curveOrderBytesBE.reverse :=
    wfBytes_reverse _ curveOrderBytesBE_wf
  have hval := subBytesLE_val a.reverse curveOrderBytesBE.reverse 0 hbl hbw
    (by omega)
  have hlen := subBytesLE_length a.reverse curveOrderBytesBE.reverse 0
  have hwf := subBytesLE_wf a.reverse curveOrderBytesBE.reverse 0
    (wfBytes_reverse _ ha) hbw (by omega)
  have hbor := subBytesLE_borrow a.reverse curveOrderBytesBE.reverse 0 (by omega)
  refine ⟨?_, ?_, hbor, ?_⟩
  · unfold subtractFromPrivateKey
    simp [hlen, hl]
  · unfold subtractFromPrivateKey
    exact wfBytes_reverse _ hwf
  · unfold subtractFromPrivateKey subtractBorrow
    rw [toNatBE_reverse]
    have hco : toNatLE curveOrderBytesBE.reverse = curveOrder := by
      rw [← toNatBE_reverse, List.reverse_reverse]
      exact curveOrderBytesBE_toNat
    have hav : toNatLE a.reverse = toNatBE a := rfl
    rw [hco, hav] at hval
    rw [List.length_reverse, hl] at hval
    push_cast at hval ⊢
    linarith [hval]

theorem addModOrder_spec (a b : List Nat) (ha : Wf32 a) (hb : Wf32 b)
    (hA : toNatBE a < curveOrder) (hB : toNatBE b < curveOrder) :
    Wf32 (addModOrder a b) ∧
      toNatBE (addModOrder a b) = (toNatBE a + toNatBE b) % curveOrder := by
  obtain ⟨hal, haw⟩ := ha
  obtain ⟨hbl, hbw⟩ := hb
  have hlt := curveOrder_lt_pow
  have hlt2 := pow_lt_two_curveOrder
  simp only [addModOrder]
  set r := addPrivateKeys a b with hr
  have hrl : r.1.length = 32 := by rw [hr, addPrivateKeys_length, hal]
  have hrw : WfBytes r.1 := by rw [hr]; exact addPrivateKeys_wf a b
  have hval := addPrivateKeys_val a b (hal.trans hbl.symm) haw hbw
  rw [hal, ← hr] at hval
  have hrv : toNatBE r.1 < 256 ^ 32 := by
    have := toNatBE_lt r.1 hrw
    rwa [hrl] at this
  by_cases hc : r.2 = true
  · have hval' : toNatBE r.1 + 256 ^ 32 = toNatBE a + toNatBE b := by
      rw [hc] at hval
      simpa using hval
    rw [if_pos (Or.inl hc)]
    obtain ⟨hsl, hsw, hsb, hsv⟩ := subtractFromPrivateKey_spec r.1 hrw hrl
    have hout : toNatBE (subtractFromPrivateKey r.1) < 256 ^ 32 := by
      have := toNatBE_lt _ hsw
      rwa [hsl] at this
    have hmod : (toNatBE a + toNatBE b) % curveOrder
        = toNatBE a + toNatBE b - curveOrder := by
      apply mod_order_of_ge <;> omega
    refine ⟨⟨hsl, hsw⟩, ?_⟩
    rw [hmod]
    omega
  · have hrf : r.2 = false := by
      cases hx : r.2
      · rfl
      · exact absurd hx hc
    have hval' : toNatBE r.1 = toNatBE a + toNatBE b := by
      rw [hrf] at hval
      simpa using hval
    by_cases hge : curveOrder ≤ toNatBE r.1
    · rw [if_pos (Or.inr ((compareWithCurveOrder_nonneg_iff r.1 ⟨hrl, hrw⟩).mpr hge))]
      obtain ⟨hsl, hsw, hsb, hsv⟩ := subtractFromPrivateKey_spec r.1 hrw hrl
      have hout : toNatBE (subtractFromPrivateKey r.1) < 256 ^ 32 := by
        have := toNatBE_lt _ hsw
        rwa [hsl] at this
      have hmod : (toNatBE a + toNatBE b) % curveOrder
          = toNatBE a + toNatBE b - curveOrder := by
        apply mod_order_of_ge <;> omega
      refine ⟨⟨hsl, hsw⟩, ?_⟩
      rw [hmod]
      omega
    · rw [if_neg ?hng]
      case hng =>
        intro hor
        rcases hor with h | h
        · exact hc h
        · exact hge ((compareWithCurveOrder_nonneg_iff r.1 ⟨hrl, hrw⟩).mp h)
      have hmod : (toNatBE a + toNatBE b) % curveOrder = toNatBE a + toNatBE b :=
        Nat.mod_eq_of_lt (by omega)
      exact ⟨⟨hrl, hrw⟩, by omega⟩

theorem addModOrderStrict_le (a b : List Nat) (ha : Wf32 a) (hb : Wf32 b)
    (hA : toNatBE a ≤ curveOrder) (hB : toNatBE b ≤ curveOrder) :
    Wf32 (addModOrderStrict a b) ∧
      toNatBE (addModOrderStrict a b) ≤ curveOrder := by
  obtain ⟨hal, haw⟩ := ha
  obtain ⟨hbl, hbw⟩ := hb
  have hlt := curveOrder_lt_pow
  have hlt2 := pow_lt_two_curveOrder
  simp only [addModOrderStrict]
  set r := addPrivateKeys a b with hr
  have hrl : r.1.length = 32 := by rw [hr, addPrivateKeys_length, hal]
  have hrw : WfBytes r.1 := by rw [hr]; exact addPrivateKeys_wf a b
  have hval := addPrivateKeys_val a b (hal.trans hbl.symm) haw hbw
  rw [hal, ← hr] at hval
  have hrv : toNatBE r.1 < 256 ^ 32 := by
    have := toNatBE_lt r.1 hrw
    rwa [hrl] at this
  by_cases hc : r.2 = true
  · have hval' : toNatBE r.1 + 256 ^ 32 = toNatBE a + toNatBE b := by
      rw [hc] at hval
      simpa using hval
    rw [if_pos (Or.inl hc)]
    obtain ⟨hsl, hsw, hsb, hsv⟩ := subtractFromPrivateKey_spec r.1 hrw hrl
    have hout : toNatBE (subtractFromPrivateKey r.1) < 256 ^ 32 := by
      have := toNatBE_lt _ hsw
      rwa [hsl] at this
    exact ⟨⟨hsl, hsw⟩, by omega⟩
  · have hrf : r.2 = false := by
      cases hx : r.2
      · rfl
      · exact absurd hx hc
    have hval' : toNatBE r.1 = toNatBE a + toNatBE b := by
      rw [hrf] at hval
      simpa using hval
    by_cases hgt : skipLoop r.1 curveOrderBytesBE = true
    · rw [if_pos (Or.inr hgt)]
      have hgt' : curveOrder < toNatBE r.1 := (skipLoop_iff_lt r.1 ⟨hrl, hrw⟩).mp hgt
      obtain ⟨hsl, hsw, hsb, hsv⟩ := subtractFromPrivateKey_spec r.1 hrw hrl
      have hout : toNatBE (subtractFromPrivateKey r.1) < 256 ^ 32 := by
        have := toNatBE_lt _ hsw
        rwa [hsl] at this
      exact ⟨⟨hsl, hsw⟩, by omega⟩
    · rw [if_neg ?hng2]
      case hng2 =>
        intro hor
        rcases hor with h | h
        · exact hc h
        · exact hgt h
      have hle : toNatBE r.1 ≤ curveOrder := by
        by_contra hx
        exact hgt ((skipLoop_iff_lt r.1 ⟨hrl, hrw⟩).mpr (by omega))
      exact ⟨⟨hrl, hrw⟩, hle⟩

theorem addModOrderStrict_order_eq (a : List Nat) (ha : Wf32 a)
    (h0 : toNatBE a ≠ 0) : addModOrderStrict a curveOrderBytesBE = a := by
  obtain ⟨hal, haw⟩ := ha
  have hlt := curveOrder_lt_pow
  have hlt2 := pow_lt_two_curveOrder
  have hav : toNatBE a < 256 ^ 32 := by
    have := toNatBE_lt a haw
    rwa [hal] at this
  simp only [addModOrderStrict]
  set r := addPrivateKeys a curveOrderBytesBE with hr
  have hrl : r.1.length = 32 := by rw [hr, addPrivateKeys_length, hal]
  have hrw : WfBytes r.1 := by rw [hr]; exact addPrivateKeys_wf a curveOrderBytesBE
  have hval := addPrivateKeys_val a curveOrderBytesBE
    (by rw [hal, curveOrderBytesBE_length]) haw curveOrderBytesBE_wf
  rw [hal, curveOrderBytesBE_toNat, ← hr] at hval
  have hrv : toNatBE r.1 < 256 ^ 32 := by
    have := toNatBE_lt r.1 hrw
    rwa [hrl] at this
  by_cases hc : r.2 = true
  · have hval' : toNatBE r.1 + 256 ^ 32 = toNatBE a + curveOrder := by
      rw [hc] at hval
      simpa using hval
    rw [if_pos (Or.inl hc)]
    obtain ⟨hsl, hsw, hsb, hsv⟩ := subtractFromPrivateKey_spec r.1 hrw hrl
    have hout : toNatBE (subtractFromPrivateKey r.1) < 256 ^ 32 := by
      have := toNatBE_lt _ hsw
      rwa [hsl] at this
    apply toNatBE_inj _ _ (by rw [hsl, hal]) hsw haw
    omega
  · have hrf : r.2 = false := by
      cases hx : r.2
      · rfl
      · exact absurd hx hc
    have hval' : toNatBE r.1 = toNatBE a + curveOrder := by
      rw [hrf] at hval
      simpa using hval
    have hgt : skipLoop r.1 curveOrderBytesBE = true :=
      (skipLoop_iff_lt r.1 ⟨hrl, hrw⟩).mpr (by omega)
    rw [if_pos (Or.inr hgt)]
    obtain ⟨hsl, hsw, hsb, hsv⟩ := subtractFromPrivateKey_spec r.1 hrw hrl
    have hout : toNatBE (subtractFromPrivateKey r.1) < 256 ^ 32 := by
      have := toNatBE_lt _ hsw
      rwa [hsl] at this
    apply toNatBE_inj _ _ (by rw [hsl, hal]) hsw haw
    omega

theorem addModOrder_eq_strict (a b : List Nat) (ha : Wf32 a) (hb : Wf32 b)
    (hsum : toNatBE a + toNatBE b ≠ curveOrder) :
    addModOrder a b = addModOrderStrict a b := by
  obtain ⟨hal, haw⟩ := ha
  obtain ⟨hbl, hbw⟩ := hb
  simp only [addModOrder, addModOrderStrict]
  set r := addPrivateKeys a b with hr
  have hrl : r.1.length = 32 := by rw [hr, addPrivateKeys_length, hal]
  have hrw : WfBytes r.1 := by rw [hr]; exact addPrivateKeys_wf a b
  have hval := addPrivateKeys_val a b (hal.trans hbl.symm) haw hbw
  rw [hal, ← hr] at hval
  by_cases hc : r.2 = true
  · rw [if_pos (Or.inl hc), if_pos (Or.inl hc)]
  · have hrf : r.2 = false := by
      cases hx : r.2
      · rfl
      · exact absurd hx hc
    have hval' : toNatBE r.1 = toNatBE a + toNatBE b := by
      rw [hrf] at hval
      simpa using hval
    have hiff1 := compareWithCurveOrder_nonneg_iff r.1 ⟨hrl, hrw⟩
    have hiff2 := skipLoop_iff_lt r.1 ⟨hrl, hrw⟩
    by_cases hge : curveOrder ≤ toNatBE r.1
    · have hgt : curveOrder < toNatBE r.1 := by omega
      rw [if_pos (Or.inr (hiff1.mpr hge)), if_pos (Or.inr (hiff2.mpr hgt))]
    · rw [if_neg ?hng3, if_neg ?hng4]
      case hng3 =>
        intro hor
        rcases hor with h | h
        · exact hc h
        · exact hge (hiff1.mp h)
      case hng4 =>
        intro hor
        rcases hor with h | h
        · exact hc h
        · exact hge (le_of_lt (hiff2.mp h))

/-! ### Step and loop lemmas -/

theorem utilsStep_eq (key IL IR : List Nat) :
    utilsStep key IL IR
      = (if 0 ≤ compareWithCurveOrder IL then key else addModOrder key IL, IR) := by
  unfold utilsStep
  by_cases h : 0 ≤ compareWithCurveOrder IL
  · rw [if_pos h, if_pos h]
  · rw [if_neg h, if_neg h]
    simp only [ite_self]

theorem customStep_eq (key IL IR : List Nat) :
    customStep key IL IR
      = (if skipLoop IL curveOrderBytesBE then key else addModOrderStrict key IL,
          IR) := by
  unfold customStep
  by_cases h : skipLoop IL curveOrderBytesBE = true
  · rw [if_pos h, if_pos h]
  · rw [if_neg h, if_neg h]
    simp only [ite_self]

theorem utilsStep_inv (key IL IR : List Nat) (hk : Wf32 key)
    (hlt : toNatBE key < curveOrder) (hIL : Wf32 IL) :
    Wf32 (utilsStep key IL IR).1 ∧ toNatBE (utilsStep key IL IR).1 < curveOrder := by
  by_cases h : 0 ≤ compareWithCurveOrder IL
  · rw [utilsStep_eq, if_pos h]
    exact ⟨hk, hlt⟩
  · rw [utilsStep_eq, if_neg h]
    have hIL' : toNatBE IL < curveOrder := by
      by_contra hx
      exact h ((compareWithCurveOrder_nonneg_iff IL hIL).mpr (by omega))
    have hs := addModOrder_spec key IL hk hIL hlt hIL'
    exact ⟨hs.1, by rw [hs.2]; exact Nat.mod_lt _ curveOrder_pos⟩

theorem customStep_inv (key IL IR : List Nat) (hk : Wf32 key)
    (hle : toNatBE key ≤ curveOrder) (hIL : Wf32 IL) :
    Wf32 (customStep key IL IR).1 ∧ toNatBE (customStep key IL IR).1 ≤ curveOrder := by
  by_cases h : skipLoop IL curveOrderBytesBE = true
  · rw [customStep_eq, if_pos h]
    exact ⟨hk, hle⟩
  · rw [customStep_eq, if_neg h]
    have hIL' : toNatBE IL ≤ curveOrder := by
      by_contra hx
      exact h ((skipLoop_iff_lt IL hIL).mpr (by omega))
    exact addModOrderStrict_le key IL hk hIL hle hIL'

theorem step_agree (key IL IR : List Nat) (hk : Wf32 key) (hIL : Wf32 IL)
    (hsum : toNatBE key + toNatBE IL ≠ curveOrder) :
    utilsStep key IL IR = customStep key IL IR := by
  rw [utilsStep_eq, customStep_eq]
  have hiff1 := compareWithCurveOrder_nonneg_iff IL hIL
  have hiff2 := skipLoop_iff_lt IL hIL
  by_cases h : curveOrder ≤ toNatBE IL
  · by_cases hq : curveOrder < toNatBE IL
    · rw [if_pos (hiff1.mpr h), if_pos (hiff2.mpr hq)]
    · have hILn : toNatBE IL = curveOrder := by omega
      have hILeq : IL = curveOrderBytesBE :=
        toNatBE_inj IL curveOrderBytesBE
          (by rw [hIL.1, curveOrderBytesBE_length]) hIL.2 curveOrderBytesBE_wf
          (by rw [hILn, curveOrderBytesBE_toNat])
      subst hILeq
      rw [if_pos (hiff1.mpr h),
        if_neg (fun hx => absurd (hiff2.mp hx) (by omega)),
        addModOrderStrict_order_eq key hk
          (by rw [curveOrderBytesBE_toNat] at hILn; omega)]
  · rw [if_neg (fun hx => h (hiff1.mp hx)),
      if_neg (fun hx => h (le_of_lt (hiff2.mp hx))),
      addModOrder_eq_strict key IL hk hIL hsum]

theorem step_skip (key IL IR : List Nat) (hk : Wf32 key) (hIL : Wf32 IL)
    (hge : curveOrder ≤ toNatBE IL) (h0 : toNatBE key ≠ 0) :
    utilsStep key IL IR = (key, IR) ∧ customStep key IL IR = (key, IR) := by
  constructor
  · rw [utilsStep_eq, if_pos ((compareWithCurveOrder_nonneg_iff IL hIL).mpr hge)]
  · by_cases h : curveOrder < toNatBE IL
    · rw [customStep_eq, if_pos ((skipLoop_iff_lt IL hIL).mpr h)]
    · have hILn : toNatBE IL = curveOrder := by omega
      have hILeq : IL = curveOrderBytesBE :=
        toNatBE_inj IL curveOrderBytesBE
          (by rw [hIL.1, curveOrderBytesBE_length]) hIL.2 curveOrderBytesBE_wf
          (by rw [hILn, curveOrderBytesBE_toNat])
      subst hILeq
      rw [customStep_eq,
        if_neg (fun hx =>
          absurd ((skipLoop_iff_lt curveOrderBytesBE
            ⟨curveOrderBytesBE_length, curveOrderBytesBE_wf⟩).mp hx) (by omega)),
        addModOrderStrict_order_eq key hk h0]

theorem hmac_take_wf32 (hmacF : List Nat → List Nat → List Nat)
    (hw : HmacWf hmacF) (k m : List Nat) : Wf32 ((hmacF k m).take 32) := by
  constructor
  · rw [List.length_take, (hw k m).1]
    decide
  · intro x hx
    exact (hw k m).2 x (List.take_subset _ _ hx)

theorem utilsDeriveLoop_inv (hmacF : List Nat → List Nat → List Nat)
    (pubF : List Nat → List Nat) (hw : HmacWf hmacF) :
    ∀ (idxs : List (Option Nat)) (st : List Nat × List Nat), Wf32 st.1 →
      toNatBE st.1 < curveOrder →
      Wf32 (utilsDeriveLoop hmacF pubF idxs st).1 ∧
        toNatBE (utilsDeriveLoop hmacF pubF idxs st).1 < curveOrder := by
  intro idxs
  induction idxs with
  | nil =>
    intro st hk hlt
    exact ⟨hk, hlt⟩
  | cons idx rest ih =>
    intro st hk hlt
    simp only [utilsDeriveLoop]
    refine ih _ ?_ ?_
    · exact (utilsStep_inv _ _ _ hk hlt (hmac_take_wf32 hmacF hw _ _)).1
    · exact (utilsStep_inv _ _ _ hk hlt (hmac_take_wf32 hmacF hw _ _)).2

theorem customDeriveLoop_inv (hmacF : List Nat → List Nat → List Nat)
    (pubF : List Nat → List Nat) (hw : HmacWf hmacF) :
    ∀ (idxs : List (Option Nat)) (st : List Nat × List Nat), Wf32 st.1 →
      toNatBE st.1 ≤ curveOrder →
      Wf32 (customDeriveLoop hmacF pubF idxs st).1.1 ∧
        toNatBE (customDeriveLoop hmacF pubF idxs st).1.1 ≤ curveOrder := by
  intro idxs
  induction idxs with
  | nil =>
    intro st hk hle
    exact ⟨hk, hle⟩
  | cons idx rest ih =>
    intro st hk hle
    simp only [customDeriveLoop]
    refine ih _ ?_ ?_
    · exact (customStep_inv _ _ _ hk hle (hmac_take_wf32 hmacF hw _ _)).1
    · exact (customStep_inv _ _ _ hk hle (hmac_take_wf32 hmacF hw _ _)).2

/-! ### Parsing lemmas -/

theorem splitOnSlash_ne_nil (cs : List Char) : splitOnSlash cs ≠ [] := by
  induction cs with
  | nil => simp [splitOnSlash]
  | cons c cs ih =>
    simp only [splitOnSlash]
    split
    · simp
    · split
      · simp
      · simp

theorem joinSlash_splitOnSlash (cs : List Char) :
    joinSlash (splitOnSlash cs) = cs := by
  induction cs with
  | nil => rfl
  | cons c cs ih =>
    by_cases hc : c = '/'
    · subst hc
      show joinSlash ([] :: splitOnSlash cs) = '/' :: cs
      rcases hsp : splitOnSlash cs with _ | ⟨g, gs⟩
      · exact absurd hsp (splitOnSlash_ne_nil cs)
      · rw [hsp] at ih
        rw [show joinSlash ([] :: g :: gs) = [] ++ '/' :: joinSlash (g :: gs) from rfl]
        simp [ih]
    · simp only [splitOnSlash, if_neg hc]
      rcases hsp : splitOnSlash cs with _ | ⟨g, gs⟩
      · exact absurd hsp (splitOnSlash_ne_nil cs)
      · rw [hsp] at ih
        cases gs with
        | nil =>
          rw [show joinSlash [c :: g] = c :: g from rfl]
          rw [show joinSlash [g] = g from rfl] at ih
          rw [ih]
        | cons g2 gs2 =>
          rw [show joinSlash ((c :: g) :: g2 :: gs2)
              = (c :: g) ++ '/' :: joinSlash (g2 :: gs2) from rfl,
            List.cons_append,
            show g ++ '/' :: joinSlash (g2 :: gs2) = joinSlash (g :: g2 :: gs2)
              from rfl,
            ih]

theorem grammarComponent_ne_nil (g : List Char) (h : grammarComponent g = true) :
    g ≠ [] := by
  intro hx
  subst hx
  simp [grammarComponent] at h

theorem grammarComponent_chars (g : List Char) (h : grammarComponent g = true) :
    ∀ c ∈ g, pathBodyChar c = true := by
  intro c hc
  unfold grammarComponent at h
  split at h
  · simp at h
  · rename_i lc hlast
    have hsplit : g.dropLast ++ [lc] = g :=
      List.dropLast_append_getLast? lc (Option.mem_def.mpr hlast)
    split at h
    · rename_i hap
      simp only [Bool.and_eq_true] at h
      obtain ⟨h1, h2⟩ := h
      rw [← hsplit] at hc
      rcases List.mem_append.mp hc with hd | hl
      · have := (List.all_eq_true.mp h2) c hd
        unfold pathBodyChar
        simp [this]
      · have hcl : c = lc := by simpa using hl
        subst hcl
        rw [hap]
        decide
    · rename_i hap
      have := (List.all_eq_true.mp h) c hc
      unfold pathBodyChar
      simp [this]

theorem joinSlash_ne_nil (g : List Char) (gs : List (List Char)) (hg : g ≠ []) :
    joinSlash (g :: gs) ≠ [] := by
  cases gs with
  | nil => exact hg
  | cons g2 gs2 =>
    rw [show joinSlash (g :: g2 :: gs2) = g ++ '/' :: joinSlash (g2 :: gs2) from rfl]
    simp

theorem joinSlash_all_pathBody (gs : List (List Char))
    (h : ∀ g ∈ gs, ∀ c ∈ g, pathBodyChar c = true) :
    ∀ c ∈ joinSlash gs, pathBodyChar c = true := by
  induction gs with
  | nil => intro c hc; simp [joinSlash] at hc
  | cons g gs2 ih =>
    intro c hc
    cases gs2 with
    | nil => exact h g (by simp) c hc
    | cons g2 gs3 =>
      rw [show joinSlash (g :: g2 :: gs3) = g ++ '/' :: joinSlash (g2 :: gs3)
        from rfl] at hc
      rcases List.mem_append.mp hc with hd | hl
      · exact h g (by simp) c hd
      · rcases List.mem_cons.mp hl with hsl | hj
        · subst hsl
          decide
        · exact ih (fun g' hg' => h g' (by simp [hg'])) c hj

theorem grammar_imp_regex (s : String) (h : specPathGrammar s = true) :
    matchesPathRegex s = true := by
  unfold specPathGrammar at h
  rcases hsp : splitOnSlash s.toList with _ | ⟨c0, rest⟩
  · rw [hsp] at h
    simp at h
  · rw [hsp] at h
    simp only [Bool.and_eq_true, Bool.or_eq_true, beq_iff_eq] at h
    obtain ⟨⟨hc0, hne⟩, hall⟩ := h
    have hjoin := joinSlash_splitOnSlash s.toList
    rw [hsp] at hjoin
    rcases rest with _ | ⟨r0, rs⟩
    · simp at hne
    · have hr0 : grammarComponent r0 = true :=
        (List.all_eq_true.mp hall) r0 (by simp)
    -- s.toList = c0 ++ '/' :: joinSlash (r0 :: rs)
      have hjs : s.toList = c0 ++ '/' :: joinSlash (r0 :: rs) := by
        rw [← hjoin]
        rfl
      have hbody_ne : joinSlash (r0 :: rs) ≠ [] :=
        joinSlash_ne_nil r0 rs (grammarComponent_ne_nil r0 hr0)
      have hbody_all : ∀ c ∈ joinSlash (r0 :: rs), pathBodyChar c = true := by
        apply joinSlash_all_pathBody
        intro g hg c hc
        exact grammarComponent_chars g ((List.all_eq_true.mp hall) g hg) c hc
      unfold matchesPathRegex
      rcases hc0 with hm | hm <;> subst hm <;>
        simp only [List.cons_append, List.nil_append] at hjs <;>
        rw [hjs] <;>
        simp [List.all_eq_true, List.isEmpty_iff, hbody_ne] <;>
        exact hbody_all

theorem hdParsePath_ok_iff (s : String) :
    (∃ idxs, hdParsePath s = Except.ok idxs) ↔ matchesPathRegex s = true := by
  unfold hdParsePath
  by_cases h : matchesPathRegex s = true
  · rw [if_pos h]
    exact ⟨fun _ => h, fun _ => ⟨_, rfl⟩⟩
  · rw [if_neg h]
    constructor
    · rintro ⟨idxs, hx⟩
      exact absurd hx (by simp)
    · intro hx
      exact absurd hx h

/-! ### Buffer-copy lemmas for the signing prefix -/

theorem listSet_replicate_zero (src rest : List Nat) :
    listSet (List.replicate src.length 0 ++ rest) 0 src = src ++ rest := by
  induction src generalizing rest with
  | nil => simp [listSet]
  | cons s ss ih =>
    simp only [List.length_cons, List.replicate_succ, List.cons_append]
    rw [show listSet (0 :: (List.replicate ss.length 0 ++ rest)) 0 (s :: ss)
        = s :: listSet (List.replicate ss.length 0 ++ rest) 0 ss from rfl, ih]

theorem listSet_src_nil (t : List Nat) (k : Nat) : listSet t k [] = t := by
  cases t <;> cases k <;> rfl

theorem listSet_append_offset (pre tgt src : List Nat) :
    listSet (pre ++ tgt) pre.length src = pre ++ listSet tgt 0 src := by
  induction pre with
  | nil => rfl
  | cons p pre2 ih =>
    cases src with
    | nil =>
      rw [listSet_src_nil, listSet_src_nil]
    | cons x xs =>
      rw [List.cons_append, List.length_cons,
        show listSet (p :: (pre2 ++ tgt)) (pre2.length + 1) (x :: xs)
          = p :: listSet (pre2 ++ tgt) pre2.length (x :: xs) from rfl,
        ih, List.cons_append]

/-! ### Claim theorems -/

/-- C5 counterexample: at `currentKey = 1`, `IL = n - 1` (both `< n`, sum
exactly `n`) the update step of `CustomTronHDWallet.fromSeed` — whose reduce
check is the strict break-loop — leaves the buffer holding exactly `n`,
not `(1 + (n-1)) mod n = 0`. -/
theorem c5_counterexample :
    addModOrderStrict oneBytes32 orderMinusOneBytes = curveOrderBytesBE ∧
    toNatBE curveOrderBytesBE
      ≠ (toNatBE oneBytes32 + toNatBE orderMinusOneBytes) % curveOrder := by
  constructor
  · decide
  · decide

/-- C5 (amended): for 32-byte buffers `currentKey, IL < n`, the utils.js
update (add with carry, subtract `n` once when the addition overflowed or the
result compares `≥ n`) yields exactly `(currentKey + IL) mod n`; the
fromSeed variant (strict `> n` reduce check) agrees except when
`currentKey + IL = n`, where it leaves the buffer holding `n`. -/
theorem c5_amended (currentKey IL : List Nat) (hk : Wf32 currentKey)
    (hIL : Wf32 IL) (hA : toNatBE currentKey < curveOrder)
    (hB : toNatBE IL < curveOrder) :
    toNatBE (addModOrder currentKey IL)
      = (toNatBE currentKey + toNatBE IL) % curveOrder ∧
    (toNatBE currentKey + toNatBE IL ≠ curveOrder →
      toNatBE (addModOrderStrict currentKey IL)
        = (toNatBE currentKey + toNatBE IL) % curveOrder) := by
  constructor
  · exact (addModOrder_spec _ _ hk hIL hA hB).2
  · intro hsum
    rw [← addModOrder_eq_strict _ _ hk hIL hsum]
    exact (addModOrder_spec _ _ hk hIL hA hB).2

/-- C5 witness: the amended statement evaluated at `currentKey = IL = 1`. -/
theorem c5_witness :
    toNatBE (addModOrder oneBytes32 oneBytes32)
      = (toNatBE oneBytes32 + toNatBE oneBytes32) % curveOrder ∧
    toNatBE (addModOrderStrict oneBytes32 oneBytes32)
      = (toNatBE oneBytes32 + toNatBE oneBytes32) % curveOrder := by
  have h := c5_amended oneBytes32 oneBytes32 (by decide) (by decide) (by decide)
    (by decide)
  exact ⟨h.1, h.2 (by decide)⟩

/-- C2 counterexample: a skipped step (`IL = 2^256 - 1 ≥ n`) leaves the
private key unchanged but the chain code — an alias of the HMAC output
buffer — ends up holding the candidate `IR`, not its previous bytes. -/
theorem c2_counterexample :
    utilsDeriveLoop constHmacFF constPub [some 0]
        (oneBytes32, List.replicate 32 0)
      = (oneBytes32, List.replicate 32 255) ∧
    List.replicate 32 255 ≠ (List.replicate 32 0 : List Nat) := by
  constructor
  · decide
  · decide

/-- C2 (amended): when `IL ≥ n` (boundary `IL = n` included) and the current
key is nonzero, both implementations leave the private-key buffer unchanged
and proceed, but the chain code becomes the candidate `IR` (in utils.js the
step is skipped by `compare ≥ 0`; in fromSeed the `IL = n` case is not
skipped, yet the add-then-reduce returns the key unchanged). -/
theorem c2_amended (key IL IR : List Nat) (hk : Wf32 key) (hIL : Wf32 IL)
    (hge : curveOrder ≤ toNatBE IL) (h0 : toNatBE key ≠ 0) :
    utilsStep key IL IR = (key, IR) ∧ customStep key IL IR = (key, IR) :=
  step_skip key IL IR hk hIL hge h0

/-- C2 witness: the amended statement at `key = 1`, `IL = n` exactly. -/
theorem c2_witness :
    utilsStep oneBytes32 curveOrderBytesBE orderMinusOneBytes
      = (oneBytes32, orderMinusOneBytes) ∧
    customStep oneBytes32 curveOrderBytesBE orderMinusOneBytes
      = (oneBytes32, orderMinusOneBytes) :=
  c2_amended oneBytes32 curveOrderBytesBE orderMinusOneBytes (by decide)
    (by decide) (by decide) (by decide)

set_option maxRecDepth 4000 in
/-- C3: evaluation at the failing input — `currentKey = 1`, `IL = n - 1`
(so `(currentKey + IL) mod n = 0`).  The zero check triggers, but the step
is not a no-op: the private-key buffer is left all-zero (the `continue`
skips only the no-op chain-code copy and nothing restores the key; the
32-byte `backupBuffer` that `fromSeed` validates is never used), and the
chain code holds the candidate `IR`. -/
theorem c3_zero_step_eval :
    utilsStep oneBytes32 orderMinusOneBytes (List.replicate 32 7)
      = (List.replicate 32 0, List.replicate 32 7) ∧
    (List.replicate 32 0 : List Nat) ≠ oneBytes32 ∧
    isBufferZero
      (utilsStep oneBytes32 orderMinusOneBytes (List.replicate 32 7)).1
      = true := by
  refine ⟨by decide, by decide, by decide⟩

/-- C4 counterexample: the two path parsers disagree on paths accepted by
both implementations.  `parsePath` (utils.js) keeps the `m` component as
`NaN` and turns hardened components into `NaN` (no hardened offset), while
`#parsePath` (custom-hdwallet.js) drops the prefix and adds `2^31`; and at
the boundary `IL = n` the utils range check skips (`compare ≥ 0`) while the
fromSeed break-loop does not. -/
theorem c4_counterexample :
    parsePath pathM0 = [none, some 0] ∧
    hdParsePath pathM0 = Except.ok [some 0] ∧
    ([none, some 0] : List (Option Nat)) ≠ [some 0] ∧
    parsePath pathM0h = [none, none] ∧
    hdParsePath pathM0h = Except.ok [some 2147483648] ∧
    0 ≤ compareWithCurveOrder curveOrderBytesBE ∧
    skipLoop curveOrderBytesBE curveOrderBytesBE = false := by
  refine ⟨by decide, rfl, by decide, by decide, rfl, by decide, by decide⟩

/-- C4 (amended): given the same per-step inputs, the two child-step
implementations produce identical (key, chain code) results whenever
`key + IL ≠ n`; the end-to-end functions still differ because their parsers
produce different index sequences for the same path string. -/
theorem c4_amended (key IL IR : List Nat) (hk : Wf32 key) (hIL : Wf32 IL)
    (hsum : toNatBE key + toNatBE IL ≠ curveOrder) :
    utilsStep key IL IR = customStep key IL IR :=
  step_agree key IL IR hk hIL hsum

/-- C4 witness: the amended step agreement at `key = IL = 1`. -/
theorem c4_witness :
    utilsStep oneBytes32 oneBytes32 (List.replicate 32 0)
      = customStep oneBytes32 oneBytes32 (List.replicate 32 0) :=
  c4_amended oneBytes32 oneBytes32 (List.replicate 32 0) (by decide) (by decide)
    (by decide)

set_option maxRecDepth 8000 in
/-- C1 counterexample: nothing range-checks the master key.  With an HMAC
oracle returning all `0xff` bytes, `derivePrivateKeyBuffer` on seed `[0]`
and path `"m/0"` finishes with a private key equal to `2^256 - 1 ≥ n` (the
master left half is copied unreduced and the out-of-range child candidates
are skipped, leaving it in place). -/
theorem c1_counterexample :
    curveOrder ≤ toNatBE (derivePrivateKeyBuffer constHmacFF constPub [0] pathM0).1 := by
  decide

/-- C1 (amended): the range invariant holds only conditionally.  If the
master key (left half of the seed HMAC) is `< n`, then every step of
`derivePrivateKeyBuffer` preserves `key < n`, so the final key is `< n`;
`fromSeed` guarantees only `key ≤ n` (its reduce check is strict, so a step
whose unreduced sum equals `n` leaves the buffer holding exactly `n`).  The
lower bound `1 ≤ key` is not guaranteed: a step whose sum is `≡ 0 (mod n)`
leaves the buffer all-zero (see C3). -/
theorem c1_amended :
    (∀ (hmacF : List Nat → List Nat → List Nat) (pubF : List Nat → List Nat),
      HmacWf hmacF → ∀ (seed : List Nat) (path : String),
      toNatBE ((hmacF MASTER_SECRET seed).take 32) < curveOrder →
      toNatBE (derivePrivateKeyBuffer hmacF pubF seed path).1 < curveOrder) ∧
    (∀ (hmacF : List Nat → List Nat → List Nat) (pubF : List Nat → List Nat),
      HmacWf hmacF → ∀ (seed : JSBytes)
      (privateKeyBuffer hmacOutputBuffer derivationDataBuffer backupBuffer : JSBuf)
      (path : String) (st : List Nat × List Nat),
      toNatBE ((hmacF MASTER_SECRET seed.bytes).take 32) < curveOrder →
      (fromSeed hmacF pubF seed privateKeyBuffer hmacOutputBuffer
          derivationDataBuffer backupBuffer path).1 = Except.ok st →
      toNatBE st.1 ≤ curveOrder) := by
  constructor
  · intro hmacF pubF hw seed path hmaster
    unfold derivePrivateKeyBuffer
    exact (utilsDeriveLoop_inv hmacF pubF hw (parsePath path) _
      (hmac_take_wf32 hmacF hw _ _) hmaster).2
  · intro hmacF pubF hw seed pk hm dd bb path st hmaster hok
    unfold fromSeed at hok
    split at hok
    · simp at hok
    · split at hok
      · simp at hok
      · split at hok
        · simp at hok
        · split at hok
          · simp at hok
          · split at hok
            · simp at hok
            · split at hok
              · simp at hok
              · simp only [Except.ok.injEq] at hok
                subst hok
                exact (customDeriveLoop_inv hmacF pubF hw _ _
                  (hmac_take_wf32 hmacF hw _ _) (le_of_lt hmaster)).2

set_option maxRecDepth 8000 in
/-- C1 witness: the amended invariant applied to an oracle whose left half is
the integer 1 (master key `1 < n`). -/
theorem c1_witness :
    toNatBE (derivePrivateKeyBuffer constHmacOne constPub [0] pathM0).1
      < curveOrder ∧
    toNatBE ((natToBytesBE 32 2, List.replicate 32 0) : List Nat × List Nat).1
      ≤ curveOrder := by
  have hw : HmacWf constHmacOne := by
    intro k m
    have h : constHmacOne k m = constHmacOne [] [] := rfl
    rw [h]
    constructor
    · decide
    · decide
  constructor
  · exact c1_amended.1 constHmacOne constPub hw [0] pathM0 (by decide)
  · exact c1_amended.2 constHmacOne constPub hw ⟨true, [0]⟩ pk32 hm64 dd37 bb32
      pathM0 (natToBytesBE 32 2, List.replicate 32 0) (by decide) rfl

/-- C8: determinism — both derivations are pure functions of the oracles,
the seed and the path; equal inputs give byte-identical results. -/
theorem c8_deterministic :
    (∀ (hmacF : List Nat → List Nat → List Nat) (pubF : List Nat → List Nat)
      (seedA seedB : List Nat) (pathA pathB : String),
      seedA = seedB → pathA = pathB →
      derivePrivateKeyBuffer hmacF pubF seedA pathA
        = derivePrivateKeyBuffer hmacF pubF seedB pathB) ∧
    (∀ (hmacF : List Nat → List Nat → List Nat) (pubF : List Nat → List Nat)
      (seedA seedB : JSBytes)
      (privateKeyBuffer hmacOutputBuffer derivationDataBuffer backupBuffer : JSBuf)
      (pathA pathB : String),
      seedA = seedB → pathA = pathB →
      fromSeed hmacF pubF seedA privateKeyBuffer hmacOutputBuffer
          derivationDataBuffer backupBuffer pathA
        = fromSeed hmacF pubF seedB privateKeyBuffer hmacOutputBuffer
            derivationDataBuffer backupBuffer pathB) := by
  constructor
  · intro _ _ _ _ _ _ h1 h2
    rw [h1, h2]
  · intro _ _ _ _ _ _ _ _ _ _ h1 h2
    rw [h1, h2]

/-- C8 witness: two runs on the same concrete seed and path coincide. -/
theorem c8_witness :
    derivePrivateKeyBuffer constHmacOne constPub [0] pathM0
      = derivePrivateKeyBuffer constHmacOne constPub [0] pathM0 :=
  c8_deterministic.1 constHmacOne constPub [0] [0] pathM0 pathM0 rfl rfl

/-- C6 counterexample: `"m/'"` does not match the spec grammar (its only
component is a bare apostrophe), yet `#parsePath` accepts it (the regex
`^[mM]\/[0-9'/]+$` is coarser), parsing it to a `NaN` index instead of
raising an error; and for a path that *is* rejected (`"x"`), the HMAC call
trace at the throw already contains the master HMAC — the error is not
raised before any HMAC. -/
theorem c6_counterexample :
    specPathGrammar pathAposOnly = false ∧
    hdParsePath pathAposOnly = Except.ok [none] ∧
    (fromSeed constHmacOne constPub ⟨true, [0]⟩ pk32 hm64 dd37 bb32 "x").2
      = [(MASTER_SECRET, [0])] := by
  refine ⟨by decide, rfl, rfl⟩

/-- C6 (amended): path validation is exactly the regex `^[mM]\/[0-9'/]+$`:
parsing succeeds iff the regex matches; every string matching the spec
grammar matches the regex (so grammar-conforming paths always proceed), but
the converse fails; and when the regex rejects, `fromSeed` throws
`"Invalid derivation path"` after having already performed the master HMAC
(its call trace holds exactly that one call). -/
theorem c6_amended :
    (∀ path, (∃ idxs, hdParsePath path = Except.ok idxs)
      ↔ matchesPathRegex path = true) ∧
    (∀ path, specPathGrammar path = true → matchesPathRegex path = true) ∧
    (∀ (hmacF : List Nat → List Nat → List Nat) (pubF : List Nat → List Nat)
      (seed : JSBytes)
      (privateKeyBuffer hmacOutputBuffer derivationDataBuffer backupBuffer : JSBuf)
      (path : String),
      seed.isU8 = true →
      privateKeyBuffer.isU8 = true → privateKeyBuffer.len = 32 →
      hmacOutputBuffer.isU8 = true → hmacOutputBuffer.len = 64 →
      derivationDataBuffer.isU8 = true → derivationDataBuffer.len = 37 →
      backupBuffer.isU8 = true → backupBuffer.len = 32 →
      matchesPathRegex path = false →
      (fromSeed hmacF pubF seed privateKeyBuffer hmacOutputBuffer
          derivationDataBuffer backupBuffer path).1
        = Except.error "Invalid derivation path" ∧
      (fromSeed hmacF pubF seed privateKeyBuffer hmacOutputBuffer
          derivationDataBuffer backupBuffer path).2
        = [(MASTER_SECRET, seed.bytes)]) := by
  refine ⟨hdParsePath_ok_iff, grammar_imp_regex, ?_⟩
  intro hmacF pubF seed pk hm dd bb path h1 h2 h3 h4 h5 h6 h7 h8 h9 hregex
  constructor <;>
    simp [fromSeed, hdParsePath, h1, h2, h3, h4, h5, h6, h7, h8, h9, hregex]

/-- C6 witness: the amended statement at the grammar-conforming path `"m/0"`
and the rejected path `"x"`. -/
theorem c6_witness :
    matchesPathRegex pathM0 = true ∧
    (fromSeed constHmacOne constPub ⟨true, [0]⟩ pk32 hm64 dd37 bb32 "x").1
      = Except.error "Invalid derivation path" :=
  ⟨c6_amended.2.1 pathM0 (by decide),
    (c6_amended.2.2 constHmacOne constPub ⟨true, [0]⟩ pk32 hm64 dd37 bb32 "x"
      rfl rfl rfl rfl rfl rfl rfl rfl rfl (by decide)).1⟩

set_option maxRecDepth 8000 in
/-- C7 counterexample: an empty seed passes the checks (`fromSeed` only
tests `seed instanceof Uint8Array`, never emptiness) and derivation
completes with no error; conversely an input passing the four claimed
checks still raises an error when the fifth, unclaimed `backupBuffer`
check fails. -/
theorem c7_counterexample :
    (fromSeed constHmacOne constPub emptySeedArg pk32 hm64 dd37 bb32 pathM0).1
      = Except.ok (natToBytesBE 32 2, List.replicate 32 0) ∧
    (fromSeed constHmacOne constPub ⟨true, [0]⟩ pk32 hm64 dd37 bb5 pathM0).1
      = Except.error "backupBuffer must be a 32-byte Uint8Array" := by
  refine ⟨rfl, rfl⟩

/-- C7 (amended): `fromSeed` raises an error with no HMAC executed iff one of
its five checks fails — seed is a `Uint8Array` (possibly empty: emptiness is
not checked), and the four scratch buffers are `Uint8Array`s of lengths
32/64/37/32 (the 32-byte `backupBuffer` is validated although derivation
never uses it).  When all five pass, the master HMAC is the first call in
the trace and the only error still possible is the path error. -/
theorem c7_amended :
    ∀ (hmacF : List Nat → List Nat → List Nat) (pubF : List Nat → List Nat)
      (seed : JSBytes)
      (privateKeyBuffer hmacOutputBuffer derivationDataBuffer backupBuffer : JSBuf)
      (path : String),
      (fromSeedChecksPass seed privateKeyBuffer hmacOutputBuffer
          derivationDataBuffer backupBuffer = false →
        (∃ e, (fromSeed hmacF pubF seed privateKeyBuffer hmacOutputBuffer
            derivationDataBuffer backupBuffer path).1 = Except.error e) ∧
        (fromSeed hmacF pubF seed privateKeyBuffer hmacOutputBuffer
            derivationDataBuffer backupBuffer path).2 = []) ∧
      (fromSeedChecksPass seed privateKeyBuffer hmacOutputBuffer
          derivationDataBuffer backupBuffer = true →
        (fromSeed hmacF pubF seed privateKeyBuffer hmacOutputBuffer
            derivationDataBuffer backupBuffer path).2
          = (MASTER_SECRET, seed.bytes)
            :: ((fromSeed hmacF pubF seed privateKeyBuffer hmacOutputBuffer
                derivationDataBuffer backupBuffer path).2).tail ∧
        ((∃ st, (fromSeed hmacF pubF seed privateKeyBuffer hmacOutputBuffer
              derivationDataBuffer backupBuffer path).1 = Except.ok st) ∨
          (fromSeed hmacF pubF seed privateKeyBuffer hmacOutputBuffer
              derivationDataBuffer backupBuffer path).1
            = Except.error "Invalid derivation path")) := by
  intro hmacF pubF seed pk hm dd bb path
  constructor
  · intro hfail
    unfold fromSeed
    split
    · exact ⟨⟨_, rfl⟩, rfl⟩
    · rename_i hc1
      split
      · exact ⟨⟨_, rfl⟩, rfl⟩
      · rename_i hc2
        split
        · exact ⟨⟨_, rfl⟩, rfl⟩
        · rename_i hc3
          split
          · exact ⟨⟨_, rfl⟩, rfl⟩
          · rename_i hc4
            split
            · exact ⟨⟨_, rfl⟩, rfl⟩
            · rename_i hc5
              exfalso
              simp only [Bool.not_eq_true, Bool.or_eq_false_iff,
                bne_eq_false_iff_eq] at hc1 hc2 hc3 hc4 hc5
              have e1 : seed.isU8 = true := by
                revert hc1
                cases seed.isU8 <;> simp
              have e2 : pk.isU8 = true := by
                have h := hc2.1
                revert h
                cases pk.isU8 <;> simp
              have e3 : hm.isU8 = true := by
                have h := hc3.1
                revert h
                cases hm.isU8 <;> simp
              have e4 : dd.isU8 = true := by
                have h := hc4.1
                revert h
                cases dd.isU8 <;> simp
              have e5 : bb.isU8 = true := by
                have h := hc5.1
                revert h
                cases bb.isU8 <;> simp
              unfold fromSeedChecksPass at hfail
              rw [e1, e2, hc2.2, e3, hc3.2, e4, hc4.2, e5, hc5.2] at hfail
              simp at hfail
  · intro hpass
    unfold fromSeedChecksPass at hpass
    simp only [Bool.and_eq_true, beq_iff_eq] at hpass
    obtain ⟨⟨⟨⟨⟨⟨⟨⟨h1, h2⟩, h3⟩, h4⟩, h5⟩, h6⟩, h7⟩, h8⟩, h9⟩ := hpass
    rcases hp : hdParsePath path with e | idxs
    · have he : e = "Invalid derivation path" := by
        revert hp
        unfold hdParsePath
        split
        · intro hx
          exact absurd hx (by simp)
        · intro hx
          simpa using hx.symm
      subst he
      constructor
      · simp [fromSeed, h1, h2, h3, h4, h5, h6, h7, h8, h9, hp]
      · right
        simp [fromSeed, h1, h2, h3, h4, h5, h6, h7, h8, h9, hp]
    · constructor
      · simp [fromSeed, h1, h2, h3, h4, h5, h6, h7, h8, h9, hp]
      · left
        refine ⟨(customDeriveLoop hmacF pubF idxs
            ((hmacF MASTER_SECRET seed.bytes).take 32,
              (hmacF MASTER_SECRET seed.bytes).drop 32)).1, ?_⟩
        simp [fromSeed, h1, h2, h3, h4, h5, h6, h7, h8, h9, hp]

/-- C7 witness: the amended statement at a failing input (wrong-size backup
buffer) and at a passing input. -/
theorem c7_witness :
    ((∃ e, (fromSeed constHmacOne constPub ⟨true, [0]⟩ pk32 hm64 dd37 bb5
        pathM0).1 = Except.error e) ∧
      (fromSeed constHmacOne constPub ⟨true, [0]⟩ pk32 hm64 dd37 bb5
        pathM0).2 = []) ∧
    (fromSeed constHmacOne constPub ⟨true, [0]⟩ pk32 hm64 dd37 bb32 pathM0).2
      = (MASTER_SECRET, [0])
        :: ((fromSeed constHmacOne constPub ⟨true, [0]⟩ pk32 hm64 dd37 bb32
            pathM0).2).tail :=
  ⟨(c7_amended constHmacOne constPub ⟨true, [0]⟩ pk32 hm64 dd37 bb5 pathM0).1
      (by decide),
    ((c7_amended constHmacOne constPub ⟨true, [0]⟩ pk32 hm64 dd37 bb32
        pathM0).2 (by decide)).1⟩

/-- C9 counterexample: after `dispose`, a signing attempt fails because
`this.#signingKey` is `null` — a generic JS `TypeError`, not a dedicated
`DisposedKeyUse` error (no such error exists anywhere in the code) — and the
`path` getter, whose backing field `dispose` never nulls, still succeeds:
not every subsequent operation fails. -/
theorem c9_counterexample :
    accountSign idKeccak constSigner (dispose accountBefore).2 []
      = Except.error "TypeError: Cannot read properties of null" ∧
    "TypeError: Cannot read properties of null" ≠ "DisposedKeyUse" ∧
    accountPathGet (dispose accountBefore).2 = Except.ok pathM0 := by
  refine ⟨rfl, by decide, rfl⟩

/-- C9 (amended): `dispose` zeroizes the private-key buffer that existed at
disposal time (it then holds only zero bytes), and any subsequent signing
attempt fails — but with the generic null-property-access `TypeError`, not a
dedicated `DisposedKeyUse` error; the `path` getter keeps succeeding after
disposal. -/
theorem c9_amended (st : AccountState) (b : List Nat)
    (hb : st.privateKeyBuffer = some b) :
    (dispose st).1 = List.replicate b.length 0 ∧
    (∀ x ∈ (dispose st).1, x = 0) ∧
    (∀ (keccakF : List Nat → List Nat) (signF : List Nat → List Nat → String)
      (messageBytes : List Nat),
      accountSign keccakF signF (dispose st).2 messageBytes
        = Except.error "TypeError: Cannot read properties of null") ∧
    accountPathGet (dispose st).2 = Except.ok st.accountPath := by
  have hzero : (dispose st).1 = List.replicate b.length 0 := by
    unfold dispose sodium_memzero
    rw [hb]
    rfl
  refine ⟨hzero, ?_, ?_, rfl⟩
  · intro x hx
    rw [hzero] at hx
    exact List.eq_of_mem_replicate hx
  · intro keccakF signF messageBytes
    rfl

/-- C9 witness: the amended statement at a concrete account holding the key
bytes of the integer 1. -/
theorem c9_witness :
    (dispose accountBefore).1 = List.replicate oneBytes32.length 0 ∧
    accountSign idKeccak constSigner (dispose accountBefore).2 [1, 2]
      = Except.error "TypeError: Cannot read properties of null" := by
  have h := c9_amended accountBefore oneBytes32 rfl
  exact ⟨h.1, h.2.2.1 idKeccak constSigner [1, 2]⟩

/-- C10: for every keccak256 oracle, signing-key oracle and message byte
string, `sign(m)` signs exactly `keccak256(prefix ++ m)`, where `prefix` is
the ASCII encoding of `"\x19TRON Signed Message:\n"` followed by the decimal
byte length of `m` — i.e. the two `set` calls that build the prefixed buffer
produce exactly the concatenation `prefix ++ m`. -/
theorem c10_sign_prefixed (keccakF : List Nat → List Nat)
    (signF : List Nat → String) (messageBytes : List Nat) :
    signMessage keccakF signF messageBytes
      = signF (keccakF
          (asciiBytes (tronSignedMessageHeader ++ toString messageBytes.length)
            ++ messageBytes)) := by
  simp only [signMessage]
  congr 2
  rw [List.replicate_add,
    listSet_replicate_zero
      (asciiBytes (tronSignedMessageHeader ++ toString messageBytes.length))
      (List.replicate messageBytes.length 0),
    listSet_append_offset
      (asciiBytes (tronSignedMessageHeader ++ toString messageBytes.length))
      (List.replicate messageBytes.length 0) messageBytes]
  congr 1
  have h := listSet_replicate_zero messageBytes ([] : List Nat)
  simpa using h
